import Mathlib

/-!
Formal model of the 2048 expectimax AI in `src/play_2048.py`.

The grid is a 4x4 matrix of non-negative integers (`0` = empty cell).
Scores computed by the heuristic and the search are modelled as exact
rationals; the Python code uses floats, whose literals `10.0`, `1.0`,
`0.1`, `100.0`, `0.9` are read here as the exact rationals they denote.
The sentinel `float('-inf')` together with Python's `None` initialisation
is modelled by folding with an `Option` accumulator: `none` plays the role
of the "nothing seen yet" state, exactly as in the source where the first
valid candidate always beats the sentinel.
-/

/-- The four move directions in the canonical iteration order used
throughout the source (`Keys.LEFT, Keys.RIGHT, Keys.UP, Keys.DOWN`). -/
inductive Dir : Type
  | left
  | right
  | up
  | down
deriving DecidableEq

/-- The canonical iteration order of directions (source lines 42, 180, 221). -/
def dirOrder : List Dir := [Dir.left, Dir.right, Dir.up, Dir.down]

/-- Position of a direction in the canonical order. -/
def dirIndex : Dir → ℕ
  | .left => 0
  | .right => 1
  | .up => 2
  | .down => 3

/-- A 4x4 grid of non-negative integers; `g i j` is row `i`, column `j`. -/
abbrev Grid : Type := Fin 4 → Fin 4 → ℕ

/-- Denotation of the in-place merge loop (source lines 64-69 / 93-98):
in one forward pass, two equal adjacent values merge into their double and
the merged value is not compared again. -/
def mergeLine : List ℕ → List ℕ
  | a :: b :: t => if a = b then a * 2 :: mergeLine t else a :: mergeLine (b :: t)
  | l => l

/-- Literal index-based model of the merge `while` loop: at index `j`, if
the element equals its successor, double it in place, remove the successor
(`pop(j+1)`), and advance `j` either way. -/
def mergeLoop (l : List ℕ) (j : ℕ) : List ℕ :=
  if j + 1 < l.length then
    if l.getD j 0 = l.getD (j + 1) 0 then
      mergeLoop ((l.set j (l.getD j 0 * 2)).eraseIdx (j + 1)) (j + 1)
    else
      mergeLoop l (j + 1)
  else l
termination_by l.length - j
decreasing_by
  · simp only [List.length_eraseIdx, List.length_set]
    split <;> omega
  · omega

/-- Processing of one line of the grid for a move (source lines 54-79 and
83-108): extract the non-zero values, orient them so that compaction is
toward index 0 (`rev = true` for Right/Down), merge, orient back, and pad
with zeros away from the compaction target.  (When the line has no non-zero
value the source `continue`s, leaving the copied all-zero line in place;
padding an empty merged list yields that same all-zero line.) -/
def processLine (rev : Bool) (l : List ℕ) : List ℕ :=
  let nz := l.filter (fun x => x != 0)
  let oriented := if rev then nz.reverse else nz
  let merged := mergeLine oriented
  let back := if rev then merged.reverse else merged
  if rev then List.replicate (4 - back.length) 0 ++ back
  else back ++ List.replicate (4 - back.length) 0

/-- Row `i` of the grid as the list the source iterates over. -/
def rowList (g : Grid) (i : Fin 4) : List ℕ := [g i 0, g i 1, g i 2, g i 3]

/-- Column `j` of the grid as the list the source extracts. -/
def colList (g : Grid) (j : Fin 4) : List ℕ := [g 0 j, g 1 j, g 2 j, g 3 j]

/-- `simulate_move` (source lines 47-114): the pure result of sliding and
merging the grid in a direction; rows are processed for Left/Right and
columns for Up/Down. -/
def simulate_move (g : Grid) (d : Dir) : Grid :=
  match d with
  | .left => fun i j => (processLine false (rowList g i)).getD j.val 0
  | .right => fun i j => (processLine true (rowList g i)).getD j.val 0
  | .up => fun i j => (processLine false (colList g j)).getD i.val 0
  | .down => fun i j => (processLine true (colList g j)).getD i.val 0

/-- `is_move_valid` (source lines 116-119): some cell differs between the
simulated grid and the original. -/
def is_move_valid (g : Grid) (d : Dir) : Bool :=
  let ng := simulate_move g d
  (List.finRange 4).any fun i => (List.finRange 4).any fun j => ng i j != g i j

/-- The row-major list of all cell coordinates, as iterated by the nested
`for i in range(4): for j in range(4)` loops of the source. -/
def cellsRM : List (Fin 4 × Fin 4) :=
  (List.finRange 4).flatMap fun i => (List.finRange 4).map fun j => (i, j)

/-- Count of empty (zero) cells (source line 132). -/
def emptyCount (g : Grid) : ℕ :=
  ∑ i : Fin 4, ∑ j : Fin 4, if g i j = 0 then 1 else 0

/-- The row-major scan for the maximum tile and its position (source lines
135-141): starting from value 0 at position `(-1, -1)`, a cell strictly
greater than the running maximum replaces it. -/
def maxScan (g : Grid) : ℕ × ℤ × ℤ :=
  cellsRM.foldl
    (fun acc c => if g c.1 c.2 > acc.1 then (g c.1 c.2, ((c.1 : ℤ), (c.2 : ℤ))) else acc)
    (0, -1, -1)

/-- Corner bonus for the maximum tile (source line 144). -/
def max_bonus (g : Grid) : ℕ :=
  if (maxScan g).2 ∈ ([(0, 0), (0, 3), (3, 0), (3, 3)] : List (ℤ × ℤ)) then 1 else 0

/-- The monotonicity feature (source lines 147-154): a forward and a
backward scan over each of the four rows, counting adjacent pairs ordered
the scanned way.  Columns are not scanned. -/
def monotonicity (g : Grid) : ℕ :=
  ∑ i : Fin 4,
    ((∑ j : Fin 3, if g i j.castSucc ≥ g i j.succ then 1 else 0) +
      (∑ j : Fin 3, if g i j.succ ≥ g i j.castSucc then 1 else 0))

/-- The smoothness feature (source lines 157-163): negated absolute
differences of horizontally and vertically adjacent cells. -/
def smoothness (g : Grid) : ℤ :=
  (∑ i : Fin 4, ∑ j : Fin 3, -|(g i j.castSucc : ℤ) - (g i j.succ : ℤ)|) +
    (∑ i : Fin 3, ∑ j : Fin 4, -|(g i.castSucc j : ℤ) - (g i.succ j : ℤ)|)

/-- `evaluate_grid` (source lines 121-171): the weighted sum of the four
features with the fixed weights of lines 124-129. -/
def evaluate_grid (g : Grid) : ℚ :=
  10 * (emptyCount g : ℚ) + 1 * (monotonicity g : ℚ) +
    0.1 * (smoothness g : ℚ) + 100 * (max_bonus g : ℚ)

/-- The row-major list of empty cells a chance node enumerates (source
lines 190-194). -/
def emptyCells (g : Grid) : List (Fin 4 × Fin 4) :=
  cellsRM.filter fun c => g c.1 c.2 == 0

/-- Writing value `v` into cell `c` of the grid (the chance node's
`grid[i][j] = v` assignments, source lines 203, 207, 211). -/
def setCell (g : Grid) (c : Fin 4 × Fin 4) (v : ℕ) : Grid :=
  fun i j => if i = c.1 ∧ j = c.2 then v else g i j

/-- The chance node's loop over empty cells (source lines 201-211), with
the in-place mutation of the shared grid made explicit: the state is the
current grid together with the running total, and each iteration writes 2,
recurses, writes 4, recurses, then writes 0 before moving on.  The final
grid is returned so that the restoration discipline is a provable fact. -/
def chanceLoop (rec : Grid → ℚ) : List (Fin 4 × Fin 4) → Grid → ℚ → ℚ × Grid
  | [], g, t => (t, g)
  | c :: cs, g, t =>
    let g2 := setCell g c 2
    let s2 := rec g2
    let g4 := setCell g2 c 4
    let s4 := rec g4
    let g0 := setCell g4 c 0
    chanceLoop rec cs g0 (t + 0.9 * s2 + 0.1 * s4)

/-- The chance branch of `expectimax_search` (source lines 189-213):
average, over the empty cells, of the probability-weighted scores;
`evaluate_grid` when no cell is empty. -/
def chanceBody (rec : Grid → ℚ) (g : Grid) : ℚ :=
  let cells := emptyCells g
  if cells = [] then evaluate_grid g
  else (chanceLoop rec cells g 0).1 / (cells.length : ℚ)

/-- One step of the player node's best-score fold (source lines 180-186):
skip a direction whose simulated grid equals the input, otherwise keep the
strictly greater score.  `none` models the `float('-inf')` start, which
any actual score beats. -/
def playerStep (rec : Grid → ℚ) (g : Grid) (acc : Option ℚ) (d : Dir) : Option ℚ :=
  let ng := simulate_move g d
  if ng = g then acc
  else
    let s := rec ng
    match acc with
    | none => some s
    | some b => if b < s then some s else some b

/-- The player branch of `expectimax_search` (source lines 178-187): the
best score over valid directions, or `evaluate_grid` when every direction
is invalid (the `best_score != -inf` guard of line 187). -/
def playerBody (rec : Grid → ℚ) (g : Grid) : ℚ :=
  match dirOrder.foldl (playerStep rec g) none with
  | some b => b
  | none => evaluate_grid g

/-- `expectimax_search` (source lines 173-213). `move = true` is a player
node, `move = false` a chance node; depth 0 evaluates the grid. -/
def expectimax_search : Grid → ℕ → Bool → ℚ
  | g, 0, _ => evaluate_grid g
  | g, d + 1, true => playerBody (fun h => expectimax_search h d false) g
  | g, d + 1, false => chanceBody (fun h => expectimax_search h d true) g

/-- The fixed search depth `self.max_depth` (source line 14). -/
def max_depth : ℕ := 3

/-- The score `get_best_move` assigns to a (valid) direction (source
line 227). -/
def moveScore (g : Grid) (d : Dir) : ℚ :=
  expectimax_search (simulate_move g d) max_depth false

/-- One step of `get_best_move`'s fold (source lines 221-230): skip a
direction that changes nothing, otherwise keep the strictly greater score
together with its direction.  `none` models the `-inf` / `None` start. -/
def bestStep (g : Grid) (acc : Option (ℚ × Dir)) (d : Dir) : Option (ℚ × Dir) :=
  let ng := simulate_move g d
  if ng = g then acc
  else
    let s := expectimax_search ng max_depth false
    match acc with
    | none => some (s, d)
    | some (bs, bm) => if bs < s then some (s, d) else some (bs, bm)

/-- `get_best_move` (source lines 215-232) as a function of the grid the
source reads from the game state: the canonical-order fold over the four
directions, defaulting to Left when no direction produces a change. -/
def get_best_move (g : Grid) : Dir :=
  match dirOrder.foldl (bestStep g) none with
  | some p => p.2
  | none => Dir.left

/-- `get_grid` (source lines 29-33): reshaping of the flat 16-cell list
from the stored game state into four rows, `grid_1d[i:i+4]` for
`i in range(0, 16, 4)`.  Values are modelled as integers, since nothing
in the function restricts them. -/
def get_grid (grid_1d : List ℤ) : List (List ℤ) :=
  [0, 4, 8, 12].map fun i => (grid_1d.drop i).take 4

/-- Total value of the tiles of a grid. -/
def gridSum (g : Grid) : ℕ := ∑ i : Fin 4, ∑ j : Fin 4, g i j

/-- The best score over the valid directions of a list, ties resolved to
the earlier direction (proof-side recursion used to characterise the
player fold). -/
def pBest (rec : Grid → ℚ) (g : Grid) : List Dir → Option ℚ
  | [] => none
  | d :: t =>
    if simulate_move g d = g then pBest rec g t
    else
      match pBest rec g t with
      | none => some (rec (simulate_move g d))
      | some s => if rec (simulate_move g d) < s then some s else some (rec (simulate_move g d))

/-- The first-attained best (score, direction) over the valid directions
of a list, ties resolved to the earlier direction (proof-side recursion
used to characterise the move-selection fold). -/
def firstBest (g : Grid) : List Dir → Option (ℚ × Dir)
  | [] => none
  | d :: t =>
    if simulate_move g d = g then firstBest g t
    else
      match firstBest g t with
      | none => some (moveScore g d, d)
      | some (s, m) =>
        if moveScore g d < s then some (s, m) else some (moveScore g d, d)

/-- A grid whose first row is `[2, 2, 0, 0]` (all other cells 0): moving it
Left performs exactly one merge, producing a tile of value 4. -/
def cexG : Grid := fun i j => if i = 0 ∧ (j = 0 ∨ j = 1) then 2 else 0

/-- A grid whose first row is `[2, 2, 2, 0]` (all other cells 0). -/
def g2220 : Grid := fun i j => if i = 0 ∧ j ≠ 3 then 2 else 0

/-- A grid whose first row is `[2, 2, 2, 2]` (all other cells 0). -/
def g2222 : Grid := fun i _ => if i = 0 then 2 else 0

/-- A grid whose first row is `[0, 0, 2, 2]` (all other cells 0). -/
def g0022 : Grid := fun i j => if i = 0 ∧ (j = 2 ∨ j = 3) then 2 else 0



theorem mergeLoop_cons : ∀ (fuel : ℕ) (x : ℕ) (l : List ℕ) (j : ℕ), l.length - j ≤ fuel →
    mergeLoop (x :: l) (j + 1) = x :: mergeLoop l j := by
  intro fuel
  induction fuel with
  | zero =>
    intro x l j h
    rw [mergeLoop.eq_def]
    conv_rhs => rw [mergeLoop.eq_def]
    rw [if_neg (by simp; omega), if_neg (by omega)]
  | succ n ih =>
    intro x l j h
    rw [mergeLoop.eq_def]
    conv_rhs => rw [mergeLoop.eq_def]
    by_cases hc : j + 1 < l.length
    · rw [if_pos (by simp; omega), if_pos hc]
      simp only [List.getD_cons_succ]
      by_cases hv : l.getD j 0 = l.getD (j + 1) 0
      · rw [if_pos hv, if_pos hv]
        have e1 : (x :: l).set (j + 1) (l.getD j 0 * 2) = x :: l.set j (l.getD j 0 * 2) := rfl
        have e2 : (x :: l.set j (l.getD j 0 * 2)).eraseIdx (j + 1 + 1)
            = x :: (l.set j (l.getD j 0 * 2)).eraseIdx (j + 1) := rfl
        rw [e1, e2]
        apply ih
        simp only [List.length_eraseIdx, List.length_set]
        split <;> omega
      · rw [if_neg hv, if_neg hv]
        apply ih
        omega
    · rw [if_neg (by simp; omega), if_neg hc]

theorem mergeLoop_eq_mergeLine : ∀ l : List ℕ, mergeLoop l 0 = mergeLine l := by
  intro l
  induction l using mergeLine.induct with
  | case1 a t ih =>
    rw [mergeLoop.eq_def]
    rw [if_pos (by simp), if_pos (by simp)]
    simp only [List.getD_cons_zero]
    have e1 : ((a :: a :: t).set 0 (a * 2)).eraseIdx 1 = (a * 2) :: t := rfl
    rw [e1, mergeLoop_cons t.length _ _ 0 (by omega), ih, mergeLine]
    rw [if_pos rfl]
  | case2 a b t hab ih =>
    rw [mergeLoop.eq_def]
    rw [if_pos (by simp), if_neg (by simpa using hab)]
    rw [mergeLoop_cons (b :: t).length _ _ 0 (by omega), ih, mergeLine]
    rw [if_neg hab]
  | case3 l h =>
    rw [mergeLoop.eq_def]
    match l, h with
    | [], _ => rfl
    | [a], _ => rfl
    | a :: b :: t, h => exact absurd (h a b t rfl) (by simp)

theorem mergeLine_sum : ∀ l : List ℕ, (mergeLine l).sum = l.sum := by
  intro l
  induction l using mergeLine.induct with
  | case1 a t ih =>
    rw [mergeLine, if_pos rfl]
    simp only [List.sum_cons, ih]
    ring
  | case2 a b t hab ih =>
    rw [mergeLine, if_neg hab]
    simp only [List.sum_cons, ih]
  | case3 l h =>
    match l, h with
    | [], _ => rfl
    | [a], _ => rfl
    | a :: b :: t, h => exact absurd (h a b t rfl) (by simp)

theorem mergeLine_length_le : ∀ l : List ℕ, (mergeLine l).length ≤ l.length := by
  intro l
  induction l using mergeLine.induct with
  | case1 a t ih =>
    rw [mergeLine, if_pos rfl]
    simp only [List.length_cons]
    omega
  | case2 a b t hab ih =>
    rw [mergeLine, if_neg hab]
    simp only [List.length_cons] at ih ⊢
    omega
  | case3 l h =>
    match l, h with
    | [], _ => exact le_refl _
    | [a], _ => exact le_refl _
    | a :: b :: t, h => exact absurd (h a b t rfl) (by simp)

theorem filter_ne_zero_sum (l : List ℕ) : (l.filter (fun x => x != 0)).sum = l.sum := by
  induction l with
  | nil => rfl
  | cons a t ih => by_cases h : a = 0 <;> simp [List.filter_cons, h, ih]

theorem processLine_sum (rev : Bool) (l : List ℕ) : (processLine rev l).sum = l.sum := by
  cases rev <;>
    simp [processLine, List.sum_append, List.sum_replicate, mergeLine_sum,
      List.sum_reverse, filter_ne_zero_sum]

theorem processLine_length (rev : Bool) (l : List ℕ) (h : l.length ≤ 4) :
    (processLine rev l).length = 4 := by
  have h1 : (l.filter (fun x => x != 0)).length ≤ l.length := List.length_filter_le _ _
  have h2 := mergeLine_length_le (l.filter (fun x => x != 0))
  have h3 := mergeLine_length_le (l.filter (fun x => x != 0)).reverse
  rw [List.length_reverse] at h3
  cases rev <;>
    · simp only [processLine, List.length_append, List.length_replicate, List.length_reverse,
        Bool.false_eq_true, if_false, if_true]
      omega

theorem sum_getD_four (l : List ℕ) (h : l.length = 4) :
    ∑ j : Fin 4, l.getD j.val 0 = l.sum := by
  rcases l with _ | ⟨a, _ | ⟨b, _ | ⟨c, _ | ⟨d, _ | ⟨e, t⟩⟩⟩⟩⟩ <;> simp at h
  rw [Fin.sum_univ_four]
  have e0 : [a, b, c, d].getD ((0 : Fin 4) : ℕ) 0 = a := rfl
  have e1 : [a, b, c, d].getD ((1 : Fin 4) : ℕ) 0 = b := rfl
  have e2 : [a, b, c, d].getD ((2 : Fin 4) : ℕ) 0 = c := rfl
  have e3 : [a, b, c, d].getD ((3 : Fin 4) : ℕ) 0 = d := rfl
  rw [e0, e1, e2, e3]
  simp [List.sum_cons]
  omega

theorem rowList_length (g : Grid) (i : Fin 4) : (rowList g i).length = 4 := rfl

theorem colList_length (g : Grid) (j : Fin 4) : (colList g j).length = 4 := rfl

theorem rowList_sum (g : Grid) (i : Fin 4) : (rowList g i).sum = ∑ j : Fin 4, g i j := by
  rw [Fin.sum_univ_four]
  simp [rowList]
  omega

theorem colList_sum (g : Grid) (j : Fin 4) : (colList g j).sum = ∑ i : Fin 4, g i j := by
  rw [Fin.sum_univ_four]
  simp [colList]
  omega

theorem sum_rows_processed (g : Grid) (rev : Bool) :
    (∑ i : Fin 4, ∑ j : Fin 4, (processLine rev (rowList g i)).getD j.val 0) = gridSum g := by
  unfold gridSum
  refine Finset.sum_congr rfl fun i _ => ?_
  rw [sum_getD_four _ (processLine_length _ _ (by rw [rowList_length])),
    processLine_sum, rowList_sum]

theorem sum_cols_processed (g : Grid) (rev : Bool) :
    (∑ i : Fin 4, ∑ j : Fin 4, (processLine rev (colList g j)).getD i.val 0) = gridSum g := by
  rw [Finset.sum_comm]
  have h : ∀ j : Fin 4,
      (∑ i : Fin 4, (processLine rev (colList g j)).getD i.val 0) = ∑ i : Fin 4, g i j := by
    intro j
    rw [sum_getD_four _ (processLine_length _ _ (by rw [colList_length])),
      processLine_sum, colList_sum]
  rw [Finset.sum_congr rfl fun j _ => h j]
  unfold gridSum
  exact Finset.sum_comm

theorem gridSum_simulate_move (g : Grid) (d : Dir) : gridSum (simulate_move g d) = gridSum g := by
  cases d
  · exact sum_rows_processed g false
  · exact sum_rows_processed g true
  · exact sum_cols_processed g false
  · exact sum_cols_processed g true

theorem setCell_setCell (g : Grid) (c : Fin 4 × Fin 4) (v w : ℕ) :
    setCell (setCell g c v) c w = setCell g c w := by
  funext i j
  by_cases h : i = c.1 ∧ j = c.2 <;> simp [setCell, h]

theorem setCell_restore (g : Grid) (c : Fin 4 × Fin 4) (h : g c.1 c.2 = 0) :
    setCell g c 0 = g := by
  funext i j
  by_cases hij : i = c.1 ∧ j = c.2
  · obtain ⟨h1, h2⟩ := hij
    subst h1
    subst h2
    simp [setCell, h]
  · simp [setCell, hij]

theorem emptyCells_empty (g : Grid) : ∀ c ∈ emptyCells g, g c.1 c.2 = 0 := by
  intro c hc
  unfold emptyCells at hc
  rw [List.mem_filter] at hc
  simpa using hc.2

theorem chanceLoop_spec (rec : Grid → ℚ) :
    ∀ (cells : List (Fin 4 × Fin 4)) (g : Grid) (t : ℚ),
      (∀ c ∈ cells, g c.1 c.2 = 0) →
      chanceLoop rec cells g t =
        (t + ((cells.map fun c =>
          0.9 * rec (setCell g c 2) + 0.1 * rec (setCell g c 4)).sum), g) := by
  intro cells
  induction cells with
  | nil =>
    intro g t h
    simp [chanceLoop]
  | cons c cs ih =>
    intro g t h
    have hc : g c.1 c.2 = 0 := h c (List.mem_cons_self _ _)
    have h24 : setCell (setCell g c 2) c 4 = setCell g c 4 := setCell_setCell g c 2 4
    have h40 : setCell (setCell g c 4) c 0 = g := by
      rw [setCell_setCell]
      exact setCell_restore g c hc
    simp only [chanceLoop, h24, h40]
    rw [ih g _ fun x hx => h x (List.mem_cons_of_mem _ hx)]
    simp only [List.map_cons, List.sum_cons, Prod.mk.injEq, and_true]
    ring

/-- Claim C5: `is_move_valid` holds exactly when the simulated move
differs from the grid in at least one cell. -/
theorem is_move_valid_iff (g : Grid) (d : Dir) :
    is_move_valid g d = true ↔ simulate_move g d ≠ g := by
  unfold is_move_valid
  simp only [List.any_eq_true, List.mem_finRange, bne_iff_ne, ne_eq, true_and]
  constructor
  · rintro ⟨i, j, hij⟩ hEq
    exact hij (by rw [hEq])
  · intro hne
    by_contra hall
    push_neg at hall
    apply hne
    funext i j
    exact hall i j

theorem expectimax_zero (g : Grid) (m : Bool) :
    expectimax_search g 0 m = evaluate_grid g := rfl

theorem expectimax_player (g : Grid) (d : ℕ) :
    expectimax_search g (d + 1) true = playerBody (fun h => expectimax_search h d false) g := rfl

theorem expectimax_chance (g : Grid) (d : ℕ) :
    expectimax_search g (d + 1) false = chanceBody (fun h => expectimax_search h d true) g := rfl

theorem pBest_fold (rec : Grid → ℚ) (g : Grid) :
    ∀ (l : List Dir) (acc : Option ℚ),
      l.foldl (playerStep rec g) acc =
        match acc with
        | none => pBest rec g l
        | some b =>
          match pBest rec g l with
          | none => some b
          | some s => if b < s then some s else some b := by
  intro l
  induction l with
  | nil =>
    intro acc
    cases acc <;> rfl
  | cons d t ih =>
    intro acc
    rw [List.foldl_cons, ih (playerStep rec g acc d)]
    cases acc with
    | none =>
      simp only [playerStep, pBest]
      by_cases hd : simulate_move g d = g
      · rw [if_pos hd, if_pos hd]
      · rw [if_neg hd, if_neg hd]
    | some b =>
      simp only [playerStep, pBest]
      by_cases hd : simulate_move g d = g
      · rw [if_pos hd, if_pos hd]
      · rw [if_neg hd, if_neg hd]
        cases hp : pBest rec g t with
        | none =>
          simp only []
          by_cases hc : b < rec (simulate_move g d) <;> simp [hc]
        | some s =>
          simp only []
          by_cases h1 : b < rec (simulate_move g d) <;>
            by_cases h2 : rec (simulate_move g d) < s <;>
            by_cases h3 : b < s
          all_goals simp only [if_pos, if_neg, h1, h2, h3, ite_true, ite_false]
          all_goals linarith

theorem pBest_none_iff (rec : Grid → ℚ) (g : Grid) :
    ∀ l : List Dir, pBest rec g l = none ↔ ∀ d ∈ l, simulate_move g d = g := by
  intro l
  induction l with
  | nil => simp [pBest]
  | cons d t ih =>
    simp only [pBest]
    by_cases hd : simulate_move g d = g
    · rw [if_pos hd]
      simp [hd, ih]
    · rw [if_neg hd]
      cases hp : pBest rec g t with
      | none => simp [hd]
      | some s =>
        simp only []
        constructor
        · intro h
          by_cases hc : rec (simulate_move g d) < s <;> simp [hc] at h
        · intro h
          exact absurd (h d (by simp)) hd

theorem pBest_attained (rec : Grid → ℚ) (g : Grid) :
    ∀ (l : List Dir) (s : ℚ), pBest rec g l = some s →
      ∃ d ∈ l, simulate_move g d ≠ g ∧ s = rec (simulate_move g d) := by
  intro l
  induction l with
  | nil => intro s h; simp [pBest] at h
  | cons d t ih =>
    intro s h
    simp only [pBest] at h
    by_cases hd : simulate_move g d = g
    · rw [if_pos hd] at h
      obtain ⟨d0, hm, hv, he⟩ := ih s h
      exact ⟨d0, List.mem_cons_of_mem _ hm, hv, he⟩
    · rw [if_neg hd] at h
      cases hp : pBest rec g t with
      | none =>
        rw [hp] at h
        simp only [Option.some.injEq] at h
        exact ⟨d, by simp, hd, h.symm⟩
      | some s0 =>
        rw [hp] at h
        simp only [] at h
        by_cases hc : rec (simulate_move g d) < s0
        · rw [if_pos hc] at h
          simp only [Option.some.injEq] at h
          obtain ⟨d0, hm, hv, he⟩ := ih s0 hp
          exact ⟨d0, List.mem_cons_of_mem _ hm, hv, by rw [h] at he; exact he⟩
        · rw [if_neg hc] at h
          simp only [Option.some.injEq] at h
          exact ⟨d, by simp, hd, h.symm⟩

theorem pBest_ub (rec : Grid → ℚ) (g : Grid) :
    ∀ (l : List Dir) (s : ℚ), pBest rec g l = some s →
      ∀ d ∈ l, simulate_move g d ≠ g → rec (simulate_move g d) ≤ s := by
  intro l
  induction l with
  | nil => intro s h; simp [pBest] at h
  | cons d t ih =>
    intro s h d0 hm hv
    simp only [pBest] at h
    rcases List.mem_cons.mp hm with rfl | hm0
    · rw [if_neg hv] at h
      cases hp : pBest rec g t with
      | none =>
        rw [hp] at h
        simp only [Option.some.injEq] at h
        exact le_of_eq h
      | some s0 =>
        rw [hp] at h
        simp only [] at h
        by_cases hc : rec (simulate_move g d0) < s0
        · rw [if_pos hc] at h
          simp only [Option.some.injEq] at h
          linarith [h]
        · rw [if_neg hc] at h
          simp only [Option.some.injEq] at h
          linarith [h]
    · by_cases hd : simulate_move g d = g
      · rw [if_pos hd] at h
        exact ih s h d0 hm0 hv
      · rw [if_neg hd] at h
        cases hp : pBest rec g t with
        | none =>
          rw [hp] at h
          have := (pBest_none_iff rec g t).mp hp d0 hm0
          exact absurd this hv
        | some s0 =>
          rw [hp] at h
          simp only [] at h
          have hle := ih s0 hp d0 hm0 hv
          by_cases hc : rec (simulate_move g d) < s0
          · rw [if_pos hc] at h
            simp only [Option.some.injEq] at h
            linarith [h]
          · rw [if_neg hc] at h
            simp only [Option.some.injEq] at h
            linarith [h]

theorem dir_mem_dirOrder (d : Dir) : d ∈ dirOrder := by
  cases d <;> simp [dirOrder]

theorem playerBody_spec (rec : Grid → ℚ) (g : Grid) :
    ((∀ d, simulate_move g d = g) → playerBody rec g = evaluate_grid g)
  ∧ ((∃ d, simulate_move g d ≠ g) →
      (∃ d, simulate_move g d ≠ g ∧ playerBody rec g = rec (simulate_move g d))
    ∧ (∀ d, simulate_move g d ≠ g → rec (simulate_move g d) ≤ playerBody rec g)) := by
  unfold playerBody
  rw [pBest_fold rec g dirOrder none]
  simp only []
  cases hp : pBest rec g dirOrder with
  | none =>
    constructor
    · intro _
      rfl
    · rintro ⟨d, hd⟩
      exact absurd ((pBest_none_iff rec g dirOrder).mp hp d (dir_mem_dirOrder d)) hd
  | some s =>
    constructor
    · intro hall
      obtain ⟨d0, -, hv, -⟩ := pBest_attained rec g dirOrder s hp
      exact absurd (hall d0) hv
    · intro hex
      constructor
      · obtain ⟨d0, -, hv, he⟩ := pBest_attained rec g dirOrder s hp
        exact ⟨d0, hv, he⟩
      · intro d hd
        exact pBest_ub rec g dirOrder s hp d (dir_mem_dirOrder d) hd

theorem firstBest_fold (g : Grid) :
    ∀ (l : List Dir) (acc : Option (ℚ × Dir)),
      l.foldl (bestStep g) acc =
        match acc with
        | none => firstBest g l
        | some (bs, bm) =>
          match firstBest g l with
          | none => some (bs, bm)
          | some (s, m) => if bs < s then some (s, m) else some (bs, bm) := by
  intro l
  induction l with
  | nil =>
    intro acc
    rcases acc with - | ⟨bs, bm⟩ <;> rfl
  | cons d t ih =>
    intro acc
    rw [List.foldl_cons, ih (bestStep g acc d)]
    rcases acc with - | ⟨bs, bm⟩
    · simp only [bestStep, firstBest, moveScore]
      by_cases hd : simulate_move g d = g
      · rw [if_pos hd, if_pos hd]
      · rw [if_neg hd, if_neg hd]
    · simp only [bestStep, firstBest, moveScore]
      by_cases hd : simulate_move g d = g
      · rw [if_pos hd, if_pos hd]
      · rw [if_neg hd, if_neg hd]
        cases hp : firstBest g t with
        | none =>
          simp only []
          by_cases hc : bs < expectimax_search (simulate_move g d) max_depth false <;>
            simp [hc]
        | some p =>
          rcases p with ⟨s, m⟩
          simp only []
          by_cases h1 : bs < expectimax_search (simulate_move g d) max_depth false <;>
            by_cases h2 : expectimax_search (simulate_move g d) max_depth false < s <;>
            by_cases h3 : bs < s
          all_goals simp only [if_pos, if_neg, h1, h2, h3, ite_true, ite_false]
          all_goals linarith

theorem firstBest_none_iff (g : Grid) :
    ∀ l : List Dir, firstBest g l = none ↔ ∀ d ∈ l, simulate_move g d = g := by
  intro l
  induction l with
  | nil => simp [firstBest]
  | cons d t ih =>
    simp only [firstBest]
    by_cases hd : simulate_move g d = g
    · rw [if_pos hd]
      simp [hd, ih]
    · rw [if_neg hd]
      cases hp : firstBest g t with
      | none =>
        simp [hd]
      | some p =>
        rcases p with ⟨s, m⟩
        simp only []
        constructor
        · intro h
          by_cases hc : moveScore g d < s <;> simp [hc] at h
        · intro h
          exact absurd (h d (by simp)) hd

theorem firstBest_attained (g : Grid) :
    ∀ (l : List Dir) (s : ℚ) (m : Dir), firstBest g l = some (s, m) →
      m ∈ l ∧ simulate_move g m ≠ g ∧ s = moveScore g m := by
  intro l
  induction l with
  | nil => intro s m h; simp [firstBest] at h
  | cons d t ih =>
    intro s m h
    simp only [firstBest] at h
    by_cases hd : simulate_move g d = g
    · rw [if_pos hd] at h
      obtain ⟨hm, hv, he⟩ := ih s m h
      exact ⟨List.mem_cons_of_mem _ hm, hv, he⟩
    · rw [if_neg hd] at h
      cases hp : firstBest g t with
      | none =>
        rw [hp] at h
        simp only [Option.some.injEq, Prod.mk.injEq] at h
        obtain ⟨h1, h2⟩ := h
        subst h2
        exact ⟨by simp, hd, h1.symm⟩
      | some p =>
        rcases p with ⟨s0, m0⟩
        rw [hp] at h
        simp only [] at h
        by_cases hc : moveScore g d < s0
        · rw [if_pos hc] at h
          simp only [Option.some.injEq, Prod.mk.injEq] at h
          obtain ⟨h1, h2⟩ := h
          subst h2
          obtain ⟨hm, hv, he⟩ := ih s0 m0 hp
          exact ⟨List.mem_cons_of_mem _ hm, hv, by rw [← h1]; exact he⟩
        · rw [if_neg hc] at h
          simp only [Option.some.injEq, Prod.mk.injEq] at h
          obtain ⟨h1, h2⟩ := h
          subst h2
          exact ⟨by simp, hd, h1.symm⟩

theorem firstBest_ub (g : Grid) :
    ∀ (l : List Dir) (s : ℚ) (m : Dir), firstBest g l = some (s, m) →
      ∀ d ∈ l, simulate_move g d ≠ g → moveScore g d ≤ s := by
  intro l
  induction l with
  | nil => intro s m h; simp [firstBest] at h
  | cons d t ih =>
    intro s m h d0 hm0 hv
    simp only [firstBest] at h
    rcases List.mem_cons.mp hm0 with rfl | hmem
    · rw [if_neg hv] at h
      cases hp : firstBest g t with
      | none =>
        rw [hp] at h
        simp only [Option.some.injEq, Prod.mk.injEq] at h
        exact le_of_eq h.1
      | some p =>
        rcases p with ⟨s0, m0⟩
        rw [hp] at h
        simp only [] at h
        by_cases hc : moveScore g d0 < s0
        · rw [if_pos hc] at h
          simp only [Option.some.injEq, Prod.mk.injEq] at h
          linarith [h.1]
        · rw [if_neg hc] at h
          simp only [Option.some.injEq, Prod.mk.injEq] at h
          linarith [h.1]
    · by_cases hd : simulate_move g d = g
      · rw [if_pos hd] at h
        exact ih s m h d0 hmem hv
      · rw [if_neg hd] at h
        cases hp : firstBest g t with
        | none =>
          exact absurd ((firstBest_none_iff g t).mp hp d0 hmem) hv
        | some p =>
          rcases p with ⟨s0, m0⟩
          rw [hp] at h
          simp only [] at h
          have hle := ih s0 m0 hp d0 hmem hv
          by_cases hc : moveScore g d < s0
          · rw [if_pos hc] at h
            simp only [Option.some.injEq, Prod.mk.injEq] at h
            linarith [h.1]
          · rw [if_neg hc] at h
            simp only [Option.some.injEq, Prod.mk.injEq] at h
            linarith [h.1]

theorem firstBest_earlier (g : Grid) :
    ∀ (l1 : List Dir) (d : Dir) (l2 : List Dir) (s : ℚ) (m : Dir),
      (l1 ++ d :: l2).Nodup →
      firstBest g (l1 ++ d :: l2) = some (s, m) →
      m ∈ l2 → simulate_move g d ≠ g → moveScore g d < s := by
  intro l1
  induction l1 with
  | nil =>
    intro d l2 s m hnd h hm hv
    simp only [List.nil_append, firstBest] at h
    rw [if_neg hv] at h
    cases hp : firstBest g l2 with
    | none =>
      rw [hp] at h
      simp only [Option.some.injEq, Prod.mk.injEq] at h
      obtain ⟨-, h2⟩ := h
      subst h2
      simp only [List.nil_append, List.nodup_cons] at hnd
      exact absurd hm hnd.1
    | some p =>
      rcases p with ⟨s0, m0⟩
      rw [hp] at h
      try simp only [] at h
      by_cases hc : moveScore g d < s0
      · rw [if_pos hc] at h
        simp only [Option.some.injEq, Prod.mk.injEq] at h
        rw [← h.1]
        exact hc
      · rw [if_neg hc] at h
        simp only [Option.some.injEq, Prod.mk.injEq] at h
        obtain ⟨-, h2⟩ := h
        subst h2
        simp only [List.nil_append, List.nodup_cons] at hnd
        exact absurd hm hnd.1
  | cons d1 t ih =>
    intro d l2 s m hnd h hm hv
    simp only [List.cons_append, firstBest, List.append_eq] at h
    simp only [List.cons_append, List.nodup_cons] at hnd
    by_cases hd1 : simulate_move g d1 = g
    · rw [if_pos hd1] at h
      exact ih d l2 s m hnd.2 h hm hv
    · rw [if_neg hd1] at h
      cases hp : firstBest g (t ++ d :: l2) with
      | none =>
        have hdall := (firstBest_none_iff g (t ++ d :: l2)).mp hp d (by simp)
        exact absurd hdall hv
      | some p =>
        rcases p with ⟨s0, m0⟩
        rw [hp] at h
        try simp only [] at h
        by_cases hc : moveScore g d1 < s0
        · rw [if_pos hc] at h
          simp only [Option.some.injEq, Prod.mk.injEq] at h
          obtain ⟨h1, h2⟩ := h
          subst h2
          rw [← h1]
          exact ih d l2 s0 m0 hnd.2 hp hm hv
        · rw [if_neg hc] at h
          simp only [Option.some.injEq, Prod.mk.injEq] at h
          obtain ⟨-, h2⟩ := h
          subst h2
          exact absurd (List.mem_append.mpr (Or.inr (List.mem_cons_of_mem _ hm))) hnd.1

/-- Claim C3: `get_best_move` returns Left when no direction changes the
grid; otherwise it returns a change-producing direction whose search score
is greatest among the change-producing directions, and any direction
scoring at least as high comes no earlier in the canonical order Left,
Right, Up, Down (so ties keep the canonical-order-earlier direction).
Totality — that a direction is always returned — is the type of
`get_best_move`. -/
theorem get_best_move_spec (g : Grid) :
    ((∀ d, simulate_move g d = g) → get_best_move g = Dir.left)
  ∧ ((∃ d, simulate_move g d ≠ g) →
      simulate_move g (get_best_move g) ≠ g
    ∧ (∀ d, simulate_move g d ≠ g → moveScore g d ≤ moveScore g (get_best_move g))
    ∧ (∀ d, simulate_move g d ≠ g → moveScore g (get_best_move g) ≤ moveScore g d →
        dirIndex (get_best_move g) ≤ dirIndex d)) := by
  have hfold : get_best_move g =
      match firstBest g dirOrder with
      | some p => p.2
      | none => Dir.left := by
    unfold get_best_move
    rw [firstBest_fold g dirOrder none]
  cases hp : firstBest g dirOrder with
  | none =>
    rw [hp] at hfold
    constructor
    · intro _
      simpa using hfold
    · rintro ⟨d, hd⟩
      exact absurd ((firstBest_none_iff g dirOrder).mp hp d (dir_mem_dirOrder d)) hd
  | some p =>
    rcases p with ⟨s, m⟩
    rw [hp] at hfold
    simp only [] at hfold
    obtain ⟨hmem, hmv, hms⟩ := firstBest_attained g dirOrder s m hp
    constructor
    · intro hall
      exact absurd (hall m) hmv
    · intro hex
      refine ⟨by rw [hfold]; exact hmv, fun d hd => ?_, fun d hd hle => ?_⟩
      · rw [hfold, ← hms]
        exact firstBest_ub g dirOrder s m hp d (dir_mem_dirOrder d) hd
      · rw [hfold] at hle ⊢
        cases d <;> cases m <;>
          first
          | decide
          | (exfalso
             have hstrict := firstBest_earlier g [] Dir.left
               [Dir.right, Dir.up, Dir.down] s _ (by decide) hp (by decide) hd
             linarith [hstrict, hle])
          | (exfalso
             have hstrict := firstBest_earlier g [Dir.left] Dir.right
               [Dir.up, Dir.down] s _ (by decide) hp (by decide) hd
             linarith [hstrict, hle])
          | (exfalso
             have hstrict := firstBest_earlier g [Dir.left, Dir.right] Dir.up
               [Dir.down] s _ (by decide) hp (by decide) hd
             linarith [hstrict, hle])

/-- Claim C1: for every grid and every depth of at least 1, a chance node
enumerates the empty cells of the grid in row-major order; when none exist
it returns the heuristic evaluation, and otherwise it returns the sum over
the empty cells of 0.9 times the search value after placing a 2 plus 0.1
times the search value after placing a 4 (at depth one less, as a player
node), divided by the number of empty cells. -/
theorem chance_node_expectation (g : Grid) (d : ℕ) :
    expectimax_search g (d + 1) false =
      if emptyCells g = [] then evaluate_grid g
      else ((emptyCells g).map fun c =>
          0.9 * expectimax_search (setCell g c 2) d true
        + 0.1 * expectimax_search (setCell g c 4) d true).sum
        / ((emptyCells g).length : ℚ) := by
  rw [expectimax_chance]
  unfold chanceBody
  by_cases hc : emptyCells g = []
  · rw [if_pos hc, if_pos hc]
  · rw [if_neg hc, if_neg hc,
      chanceLoop_spec _ (emptyCells g) g 0 (emptyCells_empty g)]
    simp only []
    rw [zero_add]

/-- Claim C7: the chance node's loop, modelled with its in-place mutation
of the shared grid made explicit as state, returns the grid it was given
unchanged: every cell it sets to 2 or 4 is restored to 0 before the branch
returns.  (`simulate_move` and `expectimax_search` are pure functions of
their arguments in this model, as the source copies the grid before
writing.) -/
theorem chance_node_restores_grid (g : Grid) (d : ℕ) (t : ℚ) :
    (chanceLoop (fun h => expectimax_search h d true) (emptyCells g) g t).2 = g := by
  rw [chanceLoop_spec _ (emptyCells g) g t (emptyCells_empty g)]

/-- Claim C8: the monotonicity feature of the evaluation counts, over the
four rows only, the horizontally adjacent pairs ordered forward plus those
ordered backward; vertically adjacent column pairs contribute nothing — in
particular the feature is invariant under every permutation of the rows. -/
theorem monotonicity_row_only (g : Grid) :
    (monotonicity g =
      (Finset.univ.filter fun p : Fin 4 × Fin 3 => g p.1 p.2.castSucc ≥ g p.1 p.2.succ).card
      + (Finset.univ.filter fun p : Fin 4 × Fin 3 => g p.1 p.2.succ ≥ g p.1 p.2.castSucc).card)
  ∧ ∀ σ : Equiv.Perm (Fin 4), monotonicity (fun i j => g (σ i) j) = monotonicity g := by
  constructor
  · unfold monotonicity
    rw [Finset.card_filter, Finset.card_filter, Fintype.sum_prod_type, Fintype.sum_prod_type,
      ← Finset.sum_add_distrib]
  · intro σ
    unfold monotonicity
    simp only []
    exact Equiv.sum_comp σ (fun i =>
      (∑ j : Fin 3, if g i j.castSucc ≥ g i j.succ then 1 else 0) +
        ∑ j : Fin 3, if g i j.succ ≥ g i j.castSucc then 1 else 0)

/-- Claim C9: evaluation of the code at a malformed input.  `get_grid`
performs no validation: on a flat list of length 3 containing a negative
value it returns normally with ragged rows and the negative entry kept,
rather than reporting any error at the boundary. -/
theorem get_grid_accepts_malformed :
    get_grid [2, -4, 8] = [[2, -4, 8], [], [], []]
  ∧ ¬(∀ row ∈ get_grid [2, -4, 8], row.length = 4)
  ∧ (∃ row ∈ get_grid [2, -4, 8], ∃ v ∈ row, v < 0) :=
  ⟨by rfl, by decide, by decide⟩

/-- Claim C6, counterexample: moving the grid with first row `[2,2,0,0]`
Left performs exactly one merge (the extracted non-zero values `[2,2]`
merge to `[4]`) and changes the grid, yet the total tile sum stays 4; it
does not strictly increase by the merged tile's value 4. -/
theorem single_merge_sum_unchanged_cex :
    mergeLine ((rowList cexG 0).filter fun x => x != 0) = [4]
  ∧ simulate_move cexG Dir.left ≠ cexG
  ∧ gridSum cexG = 4
  ∧ gridSum (simulate_move cexG Dir.left) = 4
  ∧ ¬gridSum (simulate_move cexG Dir.left) = gridSum cexG + 4 := by
  refine ⟨by decide, ?_, by decide, by decide, by decide⟩
  intro h
  have := congrFun (congrFun h 0) 0
  simp [simulate_move, cexG, processLine, rowList, mergeLine] at this

/-- Claim C2: one line is compacted and merged in a single forward pass in
which a freshly merged value is never re-compared (the index-based `while`
loop `mergeLoop` equals the recursion `mergeLine`, which skips past each
merged pair), so each tile merges at most once per move; in particular the
row `[2,2,2,0]` moved Left gives `[4,2,0,0]`, the row `[2,2,2,2]` moved
Left gives `[4,4,0,0]`, and the row `[0,0,2,2]` moved Right gives
`[0,0,0,4]`. -/
theorem merge_single_forward_pass :
    (∀ a t, mergeLine (a :: a :: t) = a * 2 :: mergeLine t)
  ∧ (∀ a b t, a ≠ b → mergeLine (a :: b :: t) = a :: mergeLine (b :: t))
  ∧ (∀ l, mergeLoop l 0 = mergeLine l)
  ∧ rowList (simulate_move g2220 Dir.left) 0 = [4, 2, 0, 0]
  ∧ rowList (simulate_move g2222 Dir.left) 0 = [4, 4, 0, 0]
  ∧ rowList (simulate_move g0022 Dir.right) 0 = [0, 0, 0, 4] := by
  refine ⟨fun a t => by rw [mergeLine, if_pos rfl],
    fun a b t hab => by rw [mergeLine, if_neg hab],
    mergeLoop_eq_mergeLine, by decide, by decide, by decide⟩

/-- Claim C4: for every grid and every depth of at least 1, a player node
returns the maximum of the chance-node search values of the simulated
moves over the directions that change the grid (the maximum is attained
and is an upper bound), and returns the heuristic evaluation of the grid
when no direction changes it, so the result is never an undefined or
negative-infinity value. -/
theorem player_node_maximum (g : Grid) (d : ℕ) :
    ((∀ dir, simulate_move g dir = g) →
      expectimax_search g (d + 1) true = evaluate_grid g)
  ∧ ((∃ dir, simulate_move g dir ≠ g) →
      (∃ dir, simulate_move g dir ≠ g ∧
        expectimax_search g (d + 1) true = expectimax_search (simulate_move g dir) d false)
    ∧ (∀ dir, simulate_move g dir ≠ g →
        expectimax_search (simulate_move g dir) d false ≤ expectimax_search g (d + 1) true)) := by
  have h := playerBody_spec (fun h => expectimax_search h d false) g
  rw [← expectimax_player] at h
  exact h

/-- Claim C6, amended: the total tile-value sum is non-decreasing across a
move; when a merge occurs the sum is unchanged, since the resulting tile's
value equals the sum of the two tiles it replaces. -/
theorem move_sum_nondecreasing (g : Grid) (d : Dir) :
    gridSum g ≤ gridSum (simulate_move g d)
  ∧ gridSum (simulate_move g d) = gridSum g :=
  ⟨le_of_eq (gridSum_simulate_move g d).symm, gridSum_simulate_move g d⟩

/-- Claim C10: a move preserves the total tile-value sum exactly: sliding
moves values and a merge replaces two tiles of value v by one of 2v. -/
theorem simulate_move_preserves_sum (g : Grid) (d : Dir) :
    gridSum (simulate_move g d) = gridSum g :=
  gridSum_simulate_move g d
